import Mathlib

/-!
Shallow embedding of `src/lib/index.ts` (the `StreamReader` class of
peek-readable-cjs), together with proofs checking the specification's claims
against it.

Modelling conventions:
- Bytes are `Nat`; a `Buffer` is a `List Nat`.  `Buffer.prototype.copy`
  (which truncates at the end of the target) becomes `bufCopy`, and
  `Buffer.prototype.slice` becomes `slice`.
- The wrapped `stream.Readable` is modelled by `Source`: `avail` is the
  stream's internal buffer, `incoming` the chunks the producer will still
  push (each arrival fires one `readable` event), and `termSig` how the
  stream terminates once `incoming` is exhausted (`end`, `error`, or
  `close`).  `calls` counts the invocations of `s.read` (instrumentation
  only; no branch reads it).
- `s.read(n)` (Node semantics: returns `n` bytes when that many are
  buffered, all remaining buffered bytes when the stream has ended, and
  `null` otherwise) becomes `sourceRead`.
- The `async`/`await`/event-listener machinery is resolved into the
  eventual outcome of each call: `awaitRead` is the
  `once('readable') → tryRead` retry loop of `_read`, and `settle` is the
  event-loop turn between two public calls, in which a pending
  termination event (`end` fires once the stream is exhausted and its
  buffer drained) runs the `reject` handler.
- Errors are `Error(endOfStream)` ↦ `Err.endOfStreamE`, a propagated
  source error with numeric identity ↦ `Err.sourceE code`,
  `Error('Stream closed')` ↦ `Err.closedE`, and the
  `assert.ok(!this.request, 'Concurrent read operation?')` failure ↦
  `Err.assertionE`.
-/

namespace PeekReadable

/-- Termination signal the source will emit after its last chunk:
`end`, `error` (carrying the error's identity), or `close`. -/
inductive Term where
  | tEnd : Term
  | tError : Nat → Term
  | tClose : Term
deriving DecidableEq

/-- Errors a call can reject with (see the modelling conventions above). -/
inductive Err where
  | endOfStreamE : Err
  | sourceE : Nat → Err
  | closedE : Err
  | assertionE : Err
deriving DecidableEq

/-- The error object the constructor's termination handlers pass to
`this.reject`: `end ↦ new Error(endOfStream)`, `error err ↦ err`,
`close ↦ new Error('Stream closed')`. -/
def termErr : Term → Err
  | Term.tEnd => Err.endOfStreamE
  | Term.tError code => Err.sourceE code
  | Term.tClose => Err.closedE

/-- The wrapped `stream.Readable`. -/
structure Source where
  avail : List Nat
  incoming : List (List Nat)
  termSig : Term
  calls : Nat
deriving DecidableEq

/-- State of a `StreamReader`: its `peekQueue` (a JS array, pushed and
popped at the END of the list), its `endOfStream` flag, whether a
`this.request` is outstanding, and the wrapped stream. -/
structure RState where
  peekQueue : List (List Nat)
  endOfStream : Bool
  request : Bool
  src : Source
deriving DecidableEq

/-- `dst` after `src.copy(dst, off)`: bytes of `src` written at `off`,
truncated at the end of `dst` (Node `Buffer.copy` semantics). -/
def bufCopy (dst : List Nat) (off : Nat) (src : List Nat) : List Nat :=
  dst.take off ++ src.take (dst.length - off) ++ dst.drop (off + src.length)

/-- `l.slice(s, e)`: the bytes `[s, e)` of `l`. -/
def slice (l : List Nat) (s e : Nat) : List Nat := (l.take e).drop s

/-- Total number of bytes held by a list of chunks. -/
def bytesIn (q : List (List Nat)) : Nat := (q.map List.length).sum

/-- `this.s.read(n)` (Node `Readable.read`): `n` buffered bytes when
`n ≤ avail.length`, all buffered bytes when the stream has reached EOF
(no further chunks and a normal `end` ahead), `null` otherwise.  Bumps
the `calls` instrumentation counter. -/
def sourceRead (src0 : Source) (n : Nat) : Option (List Nat) × Source :=
  let src1 : Source := { src0 with calls := src0.calls + 1 }
  if 0 < n ∧ n ≤ src1.avail.length then
    (some (src1.avail.take n), { src1 with avail := src1.avail.drop n })
  else if src1.incoming = [] ∧ src1.termSig = Term.tEnd ∧ src1.avail ≠ [] then
    (some src1.avail, { src1 with avail := [] })
  else (none, src1)

/-- The `once('readable') → tryRead` retry loop of `_read`: each arriving
chunk is appended to the stream's internal buffer and `s.read(n)` is
re-attempted (same semantics as `sourceRead`, counter bumped); when no
chunk is left the pending termination signal rejects the request with
the corresponding error. -/
def awaitRead (avail : List Nat) (incoming : List (List Nat)) (tm : Term)
    (n : Nat) (calls : Nat) : Except Err (List Nat) × Source :=
  match incoming with
  | [] => (Except.error (termErr tm), ⟨avail, [], tm, calls⟩)
  | c :: rest =>
    let avail1 := avail ++ c
    if 0 < n ∧ n ≤ avail1.length then
      (Except.ok (avail1.take n), ⟨avail1.drop n, rest, tm, calls + 1⟩)
    else if rest = [] ∧ tm = Term.tEnd ∧ avail1 ≠ [] then
      (Except.ok avail1, ⟨[], rest, tm, calls + 1⟩)
    else
      awaitRead avail1 rest tm n (calls + 1)

/-- `StreamReader._read(buffer, offset, length)`: asserts that no request
is outstanding, attempts a synchronous `s.read`, and otherwise registers
a request and waits (`awaitRead`).  On success it returns the byte count
and copies the bytes into the destination; the request slot ends
cleared. -/
def lowRead (st : RState) (buffer : List Nat) (offset len : Nat) :
    Except Err (Nat × List Nat × RState) :=
  if st.request = true then Except.error Err.assertionE
  else
    match sourceRead st.src len with
    | (some readBuffer, src1) =>
      Except.ok (readBuffer.length, bufCopy buffer offset readBuffer,
        { st with src := src1 })
    | (none, src1) =>
      match awaitRead src1.avail src1.incoming src1.termSig len src1.calls with
      | (Except.ok bytes, src2) =>
        Except.ok (bytes.length, bufCopy buffer offset bytes,
          { st with src := src2, request := false })
      | (Except.error e, _) => Except.error e

/-- The `while (this.peekQueue.length > 0 && remaining > 0)` loop of
`read`, on the REVERSED queue (so the end of the JS array, where
`pop()` takes and the remainder is pushed back, is the head here):
pop a chunk, copy `min(chunk.length, remaining)` of it into the buffer
at `offset + bytesRead`, and put the remainder back on top.  In the
remainder case `lenCopy = remaining`, so the loop condition fails and
it exits.  Returns (queue, buffer, bytesRead, remaining). -/
def readRev : List (List Nat) → List Nat → Nat → Nat → Nat →
    List (List Nat) × List Nat × Nat × Nat
  | q, buffer, _, bytesRead, 0 => (q, buffer, bytesRead, 0)
  | [], buffer, _, bytesRead, remaining => ([], buffer, bytesRead, remaining)
  | peekData :: rest, buffer, offset, bytesRead, remaining =>
    let lenCopy := min peekData.length remaining
    let buffer1 := bufCopy buffer (offset + bytesRead) (peekData.take lenCopy)
    if lenCopy < peekData.length then
      (peekData.drop lenCopy :: rest, buffer1, bytesRead + lenCopy,
        remaining - lenCopy)
    else
      readRev rest buffer1 offset (bytesRead + lenCopy) (remaining - lenCopy)

/-- The drain loop on the queue in source order (JS array order: `pop()`
takes the LAST element). -/
def readLoop (q : List (List Nat)) (buffer : List Nat)
    (offset bytesRead remaining : Nat) :
    List (List Nat) × List Nat × Nat × Nat :=
  let r := readRev q.reverse buffer offset bytesRead remaining
  (r.1.reverse, r.2)

/-- Specification-level view of the drain loop on the reversed queue:
the bytes it delivers, in order, and the queue it leaves. -/
def drainRev : List (List Nat) → Nat → List Nat × List (List Nat)
  | q, 0 => ([], q)
  | [], _ => ([], [])
  | peekData :: rest, remaining =>
    let lenCopy := min peekData.length remaining
    if lenCopy < peekData.length then
      (peekData.take lenCopy, peekData.drop lenCopy :: rest)
    else
      let r := drainRev rest (remaining - lenCopy)
      (peekData.take lenCopy ++ r.1, r.2)

/-- The bytes the drain loop delivers and the queue it leaves, with the
queue in source order. -/
def drainLoop (q : List (List Nat)) (remaining : Nat) :
    List Nat × List (List Nat) :=
  let r := drainRev q.reverse remaining
  (r.1, r.2.reverse)

/-- `StreamReader.read(buffer, offset, length)`: `length === 0` returns 0
at once; with an empty `peekQueue` after end-of-stream it throws
`Error(endOfStream)`; otherwise it drains the peek queue and, if bytes
are still needed and end-of-stream has not been observed, delegates to
`_read` for the rest. -/
def read (st : RState) (buffer : List Nat) (offset len : Nat) :
    Except Err (Nat × List Nat × RState) :=
  if len = 0 then Except.ok (0, buffer, st)
  else if st.peekQueue = [] ∧ st.endOfStream = true then
    Except.error Err.endOfStreamE
  else
    match readLoop st.peekQueue buffer offset 0 len with
    | (q1, buffer1, bytesRead, remaining) =>
      let st1 : RState := { st with peekQueue := q1 }
      if 0 < remaining ∧ st1.endOfStream = false then
        match lowRead st1 buffer1 (offset + bytesRead) remaining with
        | Except.ok (n, buffer2, st2) =>
          Except.ok (bytesRead + n, buffer2, st2)
        | Except.error e => Except.error e
      else Except.ok (bytesRead, buffer1, st1)

/-- `StreamReader.peek(buffer, offset, length)`: a `read`, after which the
slice `[offset, offset + bytesRead)` of the caller's buffer is pushed
back onto the peek queue. -/
def peek (st : RState) (buffer : List Nat) (offset len : Nat) :
    Except Err (Nat × List Nat × RState) :=
  match read st buffer offset len with
  | Except.ok (bytesRead, buffer1, st1) =>
    Except.ok (bytesRead, buffer1,
      { st1 with
        peekQueue := st1.peekQueue ++ [slice buffer1 offset (offset + bytesRead)] })
  | Except.error e => Except.error e

/-- `StreamReader.reject(err)`: sets `endOfStream`, and when a request is
outstanding rejects its deferred with `err` (returned as `some err`) and
clears the slot. -/
def rejectH (err : Err) (st : RState) : RState × Option Err :=
  let st1 : RState := { st with endOfStream := true }
  if st1.request = true then ({ st1 with request := false }, some err)
  else (st1, none)

/-- The `s.once('end', ...)` handler: `reject(new Error(endOfStream))`. -/
def onEnd (st : RState) : RState × Option Err := rejectH Err.endOfStreamE st

/-- The `s.once('error', err => ...)` handler: `reject(err)`. -/
def onSrcError (code : Nat) (st : RState) : RState × Option Err :=
  rejectH (Err.sourceE code) st

/-- The `s.once('close', ...)` handler: `reject(new Error('Stream closed'))`. -/
def onClose (st : RState) : RState × Option Err := rejectH Err.closedE st

/-- The event-loop turn between two public calls: when the source can
produce nothing further (no buffered bytes, no chunks to come) and the
termination event has not yet been observed, it fires now and runs the
`reject` handler with the corresponding error. -/
def settle (st : RState) : RState :=
  if st.src.avail = [] ∧ st.src.incoming = [] ∧ st.endOfStream = false then
    (rejectH (termErr st.src.termSig) st).1
  else st

/-! ### Basic lemmas about buffers and slices -/

theorem bufCopy_length (dst : List Nat) (off : Nat) (src : List Nat) :
    (bufCopy dst off src).length = dst.length := by
  simp only [bufCopy, List.length_append, List.length_take, List.length_drop]
  omega

theorem bufCopy_nil (dst : List Nat) (off : Nat) : bufCopy dst off [] = dst := by
  simp [bufCopy]

theorem bufCopy_eq_of_le (dst : List Nat) (off : Nat) (src : List Nat)
    (h : off + src.length ≤ dst.length) :
    bufCopy dst off src = dst.take off ++ src ++ dst.drop (off + src.length) := by
  simp only [bufCopy]
  rw [List.take_of_length_le (show src.length ≤ dst.length - off from by omega)]

theorem bufCopy_bufCopy (dst : List Nat) (off : Nat) (a b : List Nat)
    (h : off + a.length + b.length ≤ dst.length) :
    bufCopy (bufCopy dst off a) (off + a.length) b = bufCopy dst off (a ++ b) := by
  have ht : (dst.take off).length = off := by
    rw [List.length_take]; omega
  rw [bufCopy_eq_of_le dst off a (by omega),
    bufCopy_eq_of_le _ (off + a.length) b (by
      simp only [List.length_append, List.length_drop, ht]; omega),
    bufCopy_eq_of_le dst off (a ++ b) (by rw [List.length_append]; omega)]
  have e1 : (dst.take off ++ a).length = off + a.length := by
    rw [List.length_append, ht]
  have h1 : (dst.take off ++ a ++ dst.drop (off + a.length)).take (off + a.length)
      = dst.take off ++ a := by
    rw [@List.take_append_eq_append_take Nat (dst.take off ++ a)
        (dst.drop (off + a.length)) (off + a.length),
      List.take_of_length_le
        (show (dst.take off ++ a).length ≤ off + a.length from by omega), e1,
      Nat.sub_self, List.take_zero, List.append_nil]
  have h2 : (dst.take off ++ a ++ dst.drop (off + a.length)).drop
      (off + a.length + b.length) = dst.drop (off + a.length + b.length) := by
    rw [@List.drop_append_eq_append_drop Nat (dst.take off ++ a)
        (dst.drop (off + a.length)) (off + a.length + b.length),
      List.drop_eq_nil_of_le
        (show (dst.take off ++ a).length ≤ off + a.length + b.length from
          by omega), e1,
      Nat.add_sub_cancel_left, List.nil_append, List.drop_drop]
  rw [h1, h2]
  simp [List.append_assoc, Nat.add_assoc]

theorem slice_length (l : List Nat) (s e : Nat) (hs : s ≤ e) (he : e ≤ l.length) :
    (slice l s e).length = e - s := by
  simp only [slice, List.length_drop, List.length_take]
  omega

theorem slice_same (l : List Nat) (s : Nat) : slice l s s = [] := by
  apply List.drop_eq_nil_of_le
  simp only [List.length_take]
  omega

theorem slice_bufCopy (dst : List Nat) (off : Nat) (src : List Nat)
    (h : off + src.length ≤ dst.length) :
    slice (bufCopy dst off src) off (off + src.length) = src := by
  have ht : (dst.take off).length = off := by
    rw [List.length_take]; omega
  have e1 : (dst.take off ++ src).length = off + src.length := by
    rw [List.length_append, ht]
  rw [bufCopy_eq_of_le dst off src h]
  simp only [slice]
  rw [@List.take_append_eq_append_take Nat (dst.take off ++ src)
      (dst.drop (off + src.length)) (off + src.length),
    List.take_of_length_le
      (show (dst.take off ++ src).length ≤ off + src.length from by omega), e1,
    Nat.sub_self, List.take_zero, List.append_nil,
    @List.drop_append_eq_append_drop Nat (dst.take off) src off,
    List.drop_eq_nil_of_le (show (dst.take off).length ≤ off from by omega),
    ht, Nat.sub_self, List.drop_zero, List.nil_append]

/-! ### Lemmas about the drain loop -/

theorem bytesIn_nil : bytesIn [] = 0 := rfl

theorem bytesIn_cons (c : List Nat) (q : List (List Nat)) :
    bytesIn (c :: q) = c.length + bytesIn q := by
  simp [bytesIn]

theorem bytesIn_append (q₁ q₂ : List (List Nat)) :
    bytesIn (q₁ ++ q₂) = bytesIn q₁ + bytesIn q₂ := by
  simp [bytesIn]

theorem bytesIn_reverse (q : List (List Nat)) : bytesIn q.reverse = bytesIn q := by
  simp [bytesIn, List.sum_reverse]

theorem drainRev_zero (q : List (List Nat)) : drainRev q 0 = ([], q) := by
  cases q <;> rfl

theorem drainRev_nil (n : Nat) : drainRev [] n = ([], []) := by
  cases n <;> rfl

theorem drainRev_cons (c : List Nat) (q : List (List Nat)) (n : Nat) (hn : 0 < n) :
    drainRev (c :: q) n =
      if min c.length n < c.length then
        (c.take (min c.length n), c.drop (min c.length n) :: q)
      else
        (c.take (min c.length n) ++ (drainRev q (n - min c.length n)).1,
          (drainRev q (n - min c.length n)).2) := by
  match n, hn with
  | n + 1, _ => rfl

theorem drainRev_length_le (q : List (List Nat)) (n : Nat) :
    (drainRev q n).1.length ≤ n := by
  induction q generalizing n with
  | nil => rw [drainRev_nil]; exact Nat.zero_le n
  | cons c q ih =>
    cases n with
    | zero => rw [drainRev_zero]; exact Nat.le_refl 0
    | succ m =>
      rw [drainRev_cons c q (m + 1) (Nat.succ_pos m)]
      split
      · simp only [List.length_take]
        omega
      · simp only [List.length_append, List.length_take]
        have := ih (m + 1 - min c.length (m + 1))
        omega

theorem drainRev_length_eq (q : List (List Nat)) (n : Nat) :
    (drainRev q n).1.length = min n (bytesIn q) := by
  induction q generalizing n with
  | nil => rw [drainRev_nil, bytesIn_nil]; simp
  | cons c q ih =>
    cases n with
    | zero => rw [drainRev_zero]; simp
    | succ m =>
      rw [drainRev_cons c q (m + 1) (Nat.succ_pos m), bytesIn_cons]
      split
      · simp only [List.length_take]
        omega
      · simp only [List.length_append, List.length_take,
          ih (m + 1 - min c.length (m + 1))]
        omega

theorem drainRev_snd_of_lt (q : List (List Nat)) (n : Nat)
    (h : (drainRev q n).1.length < n) : (drainRev q n).2 = [] := by
  induction q generalizing n with
  | nil => rw [drainRev_nil]
  | cons c q ih =>
    cases n with
    | zero => rw [drainRev_zero] at h; exact absurd h (by simp)
    | succ m =>
      rw [drainRev_cons c q (m + 1) (Nat.succ_pos m)] at h ⊢
      split
      · rename_i hsplit
        rw [if_pos hsplit] at h
        dsimp only at h
        simp only [List.length_take] at h
        exact absurd h (by omega)
      · rename_i hsplit
        rw [if_neg hsplit] at h
        dsimp only at h ⊢
        simp only [List.length_append, List.length_take] at h
        exact ih (m + 1 - min c.length (m + 1)) (by omega)

theorem readRev_zero (q : List (List Nat)) (buffer : List Nat) (off br : Nat) :
    readRev q buffer off br 0 = (q, buffer, br, 0) := by
  cases q <;> rfl

theorem readRev_nil (buffer : List Nat) (off br n : Nat) :
    readRev [] buffer off br n = ([], buffer, br, n) := by
  cases n <;> rfl

theorem readRev_cons (c : List Nat) (q : List (List Nat)) (buffer : List Nat)
    (off br n : Nat) (hn : 0 < n) :
    readRev (c :: q) buffer off br n =
      if min c.length n < c.length then
        (c.drop (min c.length n) :: q,
          bufCopy buffer (off + br) (c.take (min c.length n)),
          br + min c.length n, n - min c.length n)
      else
        readRev q (bufCopy buffer (off + br) (c.take (min c.length n))) off
          (br + min c.length n) (n - min c.length n) := by
  match n, hn with
  | n + 1, _ => rfl

/-- The faithful drain loop and its specification-level view agree: the
loop writes exactly the delivered bytes contiguously at
`offset + bytesRead`, advances `bytesRead` by their number, and leaves
the same queue. -/
theorem readRev_spec (q : List (List Nat)) (buffer : List Nat)
    (off br rem : Nat) (hb : off + br + rem ≤ buffer.length) :
    readRev q buffer off br rem =
      ((drainRev q rem).2, bufCopy buffer (off + br) (drainRev q rem).1,
        br + (drainRev q rem).1.length, rem - (drainRev q rem).1.length) := by
  induction q generalizing buffer br rem with
  | nil =>
    rw [readRev_nil, drainRev_nil]
    simp [bufCopy_nil]
  | cons c q ih =>
    cases rem with
    | zero =>
      rw [readRev_zero, drainRev_zero]
      simp [bufCopy_nil]
    | succ m =>
      rw [readRev_cons c q buffer off br (m + 1) (Nat.succ_pos m),
        drainRev_cons c q (m + 1) (Nat.succ_pos m)]
      have hmin : min c.length (m + 1) ≤ c.length := Nat.min_le_left _ _
      have hminr : min c.length (m + 1) ≤ m + 1 := Nat.min_le_right _ _
      have htk : (c.take (min c.length (m + 1))).length = min c.length (m + 1) := by
        rw [List.length_take]; omega
      split
      · simp [htk]
      · have hlen : (bufCopy buffer (off + br) (c.take (min c.length (m + 1)))).length
            = buffer.length := bufCopy_length _ _ _
        rw [ih (bufCopy buffer (off + br) (c.take (min c.length (m + 1))))
          (br + min c.length (m + 1)) (m + 1 - min c.length (m + 1))
          (by rw [hlen]; omega)]
        have hd := drainRev_length_le q (m + 1 - min c.length (m + 1))
        have hcomp := bufCopy_bufCopy buffer (off + br)
          (c.take (min c.length (m + 1)))
          (drainRev q (m + 1 - min c.length (m + 1))).1
          (by rw [htk]; omega)
        rw [htk] at hcomp
        have hoff : off + br + min c.length (m + 1)
            = off + (br + min c.length (m + 1)) := by omega
        rw [← hoff, hcomp]
        simp only [List.length_append, htk, Prod.mk.injEq, true_and]
        omega

theorem drainLoop_nil (n : Nat) : drainLoop [] n = ([], []) := by
  simp [drainLoop, drainRev_nil]

theorem drainLoop_zero (q : List (List Nat)) : drainLoop q 0 = ([], q) := by
  simp [drainLoop, drainRev_zero]

/-- Consuming from a queue whose LAST (most recently pushed) chunk is `c`,
when `c` does not cover the whole request: all of `c` is delivered first,
then the rest of the queue is drained. -/
theorem drainLoop_concat_of_le (q : List (List Nat)) (c : List Nat) (n : Nat)
    (hn : 0 < n) (hc : c.length ≤ n) :
    drainLoop (q ++ [c]) n =
      (c ++ (drainLoop q (n - c.length)).1, (drainLoop q (n - c.length)).2) := by
  have hrev : (q ++ [c]).reverse = c :: q.reverse := by simp
  have hmin : min c.length n = c.length := Nat.min_eq_left hc
  simp only [drainLoop, hrev, drainRev_cons c q.reverse n hn, hmin,
    lt_self_iff_false, if_false, List.take_length]

/-- Consuming from a queue whose LAST chunk is `c`, when `c` more than
covers the request: the first `n` bytes of `c` are delivered and the
remainder `c.drop n` is pushed back in its place. -/
theorem drainLoop_concat_of_lt (q : List (List Nat)) (c : List Nat) (n : Nat)
    (hn : 0 < n) (h : n < c.length) :
    drainLoop (q ++ [c]) n = (c.take n, q ++ [c.drop n]) := by
  have hrev : (q ++ [c]).reverse = c :: q.reverse := by simp
  have hmin : min c.length n = n := Nat.min_eq_right (Nat.le_of_lt h)
  simp only [drainLoop, hrev, drainRev_cons c q.reverse n hn, hmin, if_pos h,
    List.reverse_cons, List.reverse_reverse]

theorem drainLoop_length_le (q : List (List Nat)) (n : Nat) :
    (drainLoop q n).1.length ≤ n := by
  simpa [drainLoop] using drainRev_length_le q.reverse n

theorem drainLoop_length_eq (q : List (List Nat)) (n : Nat) :
    (drainLoop q n).1.length = min n (bytesIn q) := by
  simpa [drainLoop, bytesIn_reverse] using drainRev_length_eq q.reverse n

theorem drainLoop_snd_of_lt (q : List (List Nat)) (n : Nat)
    (h : (drainLoop q n).1.length < n) : (drainLoop q n).2 = [] := by
  have h2 : (drainRev q.reverse n).1.length < n := by
    simpa [drainLoop] using h
  simp [drainLoop, drainRev_snd_of_lt q.reverse n h2]

/-- `readLoop` in terms of its specification view `drainLoop`. -/
theorem readLoop_spec (q : List (List Nat)) (buffer : List Nat)
    (off br rem : Nat) (hb : off + br + rem ≤ buffer.length) :
    readLoop q buffer off br rem =
      ((drainLoop q rem).2, bufCopy buffer (off + br) (drainLoop q rem).1,
        br + (drainLoop q rem).1.length, rem - (drainLoop q rem).1.length) := by
  simp only [readLoop, drainLoop, readRev_spec q.reverse buffer off br rem hb]

/-! ### Structural lemmas about the source-facing operations -/

theorem termErr_ne_assertionE (tm : Term) : termErr tm ≠ Err.assertionE := by
  cases tm <;> simp [termErr]

/-- A successful wait for data: at most `n` bytes are returned, getting
fewer than `n` only happens when the stream reached EOF (normal end,
everything drained), and the termination signal is untouched. -/
theorem awaitRead_ok {avail : List Nat} {incoming : List (List Nat)}
    {tm : Term} {n calls : Nat} {bytes : List Nat} {src2 : Source}
    (hn : 0 < n)
    (h : awaitRead avail incoming tm n calls = (Except.ok bytes, src2)) :
    bytes.length ≤ n ∧
    (bytes.length < n → src2.avail = [] ∧ src2.incoming = [] ∧
      tm = Term.tEnd) ∧
    src2.termSig = tm := by
  induction incoming generalizing avail calls with
  | nil =>
    rw [awaitRead] at h
    exact absurd h (by simp)
  | cons c rest ih =>
    rw [awaitRead] at h
    split at h
    · rename_i hcond
      simp only [Prod.mk.injEq, Except.ok.injEq] at h
      obtain ⟨hbytes, hsrc⟩ := h
      subst hbytes
      subst hsrc
      refine ⟨by simp [List.length_take], ?_, rfl⟩
      intro hlt
      rw [List.length_take] at hlt
      omega
    · split at h
      · rename_i hcond1 hcond2
        simp only [Prod.mk.injEq, Except.ok.injEq] at h
        obtain ⟨hbytes, hsrc⟩ := h
        subst hbytes
        subst hsrc
        refine ⟨by omega, fun _ => ⟨rfl, hcond2.1, hcond2.2.1⟩, rfl⟩
      · exact ih h

/-- A failed wait for data rejects with the error of the termination
signal. -/
theorem awaitRead_error {avail : List Nat} {incoming : List (List Nat)}
    {tm : Term} {n calls : Nat} {e : Err} {src2 : Source}
    (h : awaitRead avail incoming tm n calls = (Except.error e, src2)) :
    e = termErr tm := by
  induction incoming generalizing avail calls with
  | nil =>
    rw [awaitRead] at h
    simp only [Prod.mk.injEq, Except.error.injEq] at h
    exact h.1.symm
  | cons c rest ih =>
    rw [awaitRead] at h
    split at h
    · exact absurd h (by simp)
    · split at h
      · exact absurd h (by simp)
      · exact ih h

/-- A successful `_read`: the returned count is the length of the bytes
written at `offset`, it never exceeds the request, a short return only
happens at EOF, and neither the peek queue nor the `endOfStream` flag is
touched. -/
theorem lowRead_ok {st : RState} {buffer : List Nat} {offset len m : Nat}
    {buf2 : List Nat} {st2 : RState} (hlen : 0 < len)
    (h : lowRead st buffer offset len = Except.ok (m, buf2, st2)) :
    ∃ sb : List Nat, m = sb.length ∧ m ≤ len ∧
      buf2 = bufCopy buffer offset sb ∧
      st2.peekQueue = st.peekQueue ∧ st2.endOfStream = st.endOfStream ∧
      (m < len → st2.src.avail = [] ∧ st2.src.incoming = [] ∧
        st2.src.termSig = Term.tEnd) := by
  rw [lowRead] at h
  split at h
  · exact absurd h (by simp)
  · split at h
    · rename_i readBuffer src1 heq
      rw [sourceRead] at heq
      simp only [Prod.mk.injEq, Except.ok.injEq] at h
      obtain ⟨hm, hbuf, hst⟩ := h
      subst hm
      subst hbuf
      subst hst
      split at heq
      · rename_i hcond
        dsimp only at hcond
        simp only [Prod.mk.injEq, Option.some.injEq] at heq
        obtain ⟨hrb, hsrc⟩ := heq
        subst hrb
        subst hsrc
        refine ⟨List.take len st.src.avail, rfl, ?_, rfl, rfl, rfl, ?_⟩
        · rw [List.length_take]; omega
        · intro hlt
          exact absurd hlt (by simp only [List.length_take]; omega)
      · split at heq
        · rename_i hcond1 hcond2
          dsimp only at hcond1 hcond2
          simp only [Prod.mk.injEq, Option.some.injEq] at heq
          obtain ⟨hrb, hsrc⟩ := heq
          subst hrb
          subst hsrc
          have hav : st.src.avail.length < len := by
            by_contra hc
            push_neg at hc
            exact hcond1 ⟨hlen, by omega⟩
          exact ⟨st.src.avail, rfl, by omega, rfl, rfl, rfl,
            fun _ => ⟨rfl, hcond2.1, hcond2.2.1⟩⟩
        · exact absurd heq (by simp)
    · rename_i src1 heq
      split at h
      · rename_i bytes src2 heq2
        simp only [Prod.mk.injEq, Except.ok.injEq] at h
        obtain ⟨hm, hbuf, hst⟩ := h
        subst hm
        subst hbuf
        subst hst
        obtain ⟨hle, hshort, htm⟩ := awaitRead_ok hlen heq2
        refine ⟨bytes, rfl, by omega, rfl, rfl, rfl, ?_⟩
        intro hlt
        have hs := hshort (by omega)
        have htm2 : src2.termSig = Term.tEnd := by rw [htm, hs.2.2]
        exact ⟨hs.1, hs.2.1, htm2⟩
      · exact absurd h (by simp)

/-- A failed `_read` made with no outstanding request rejects with a
termination error, never with the concurrency assertion. -/
theorem lowRead_error {st : RState} {buffer : List Nat} {offset len : Nat}
    {e : Err} (hreq : st.request = false)
    (h : lowRead st buffer offset len = Except.error e) :
    ∃ tm, e = termErr tm := by
  rw [lowRead] at h
  split at h
  · rename_i hcontra
    rw [hreq] at hcontra
    exact absurd hcontra (by simp)
  · split at h
    · exact absurd h (by simp)
    · rename_i src1 heq
      split at h
      · exact absurd h (by simp)
      · rename_i e2 src2 heq2
        simp only [Except.error.injEq] at h
        subst h
        exact ⟨src1.termSig, awaitRead_error heq2⟩

/-! ### Lemmas about `settle`, `peek` and `read` -/

theorem settle_peekQueue (st : RState) : (settle st).peekQueue = st.peekQueue := by
  rw [settle]
  split
  · rw [rejectH]
    split <;> rfl
  · rfl

theorem settle_src (st : RState) : (settle st).src = st.src := by
  rw [settle]
  split
  · rw [rejectH]
    split <;> rfl
  · rfl

theorem settle_of_endOfStream (st : RState) (h : st.endOfStream = true) :
    settle st = st := by
  rw [settle, if_neg]
  simp [h]

theorem settle_endOfStream_of_exhausted (st : RState)
    (h1 : st.src.avail = []) (h2 : st.src.incoming = []) :
    (settle st).endOfStream = true := by
  rw [settle]
  split
  · rw [rejectH]
    split <;> rfl
  · rename_i hc
    simp only [h1, h2, true_and, Bool.not_eq_false] at hc
    exact hc

theorem peek_ok {st : RState} {buf : List Nat} {off n r : Nat}
    {buf1 : List Nat} {st1 : RState}
    (h : peek st buf off n = Except.ok (r, buf1, st1)) :
    ∃ strd : RState, read st buf off n = Except.ok (r, buf1, strd) ∧
      st1 = { strd with
        peekQueue := strd.peekQueue ++ [slice buf1 off (off + r)] } := by
  rw [peek] at h
  split at h
  · rename_i bytesRead buffer1 strd heq
    simp only [Except.ok.injEq, Prod.mk.injEq] at h
    obtain ⟨hr, hbuf, hst⟩ := h
    subst hr
    subst hbuf
    subst hst
    exact ⟨strd, heq, rfl⟩
  · exact absurd h (by simp)

/-- Structure of any successful `read` with a positive request: the result
is the drained bytes followed by bytes pulled from the source, written
contiguously at `offset`; the remaining queue is what the drain loop
left; the `endOfStream` flag is untouched; and a short read leaves an
empty queue and can only happen after end-of-stream was observed or with
the source exhausted on a normal `end`. -/
theorem read_ok {st : RState} {buf : List Nat} {off n r : Nat}
    {buf1 : List Nat} {st1 : RState} (hn : 0 < n) (hb : off + n ≤ buf.length)
    (h : read st buf off n = Except.ok (r, buf1, st1)) :
    ∃ sb : List Nat,
      r = (drainLoop st.peekQueue n).1.length + sb.length ∧ r ≤ n ∧
      buf1 = bufCopy buf off ((drainLoop st.peekQueue n).1 ++ sb) ∧
      st1.peekQueue = (drainLoop st.peekQueue n).2 ∧
      st1.endOfStream = st.endOfStream ∧
      (r < n → st1.peekQueue = [] ∧
        (st.endOfStream = true ∨ (st1.src.avail = [] ∧ st1.src.incoming = [] ∧
          st1.src.termSig = Term.tEnd))) := by
  rw [read, if_neg (by omega)] at h
  split at h
  · exact absurd h (by simp)
  · rw [readLoop_spec st.peekQueue buf off 0 n (by omega)] at h
    dsimp only at h
    simp only [Nat.zero_add, Nat.add_zero] at h
    have hdle : (drainLoop st.peekQueue n).1.length ≤ n :=
      drainLoop_length_le st.peekQueue n
    split at h
    · rename_i hcond
      split at h
      · rename_i m buffer2 st2 heq
        simp only [Except.ok.injEq, Prod.mk.injEq] at h
        obtain ⟨hr, hbuf, hst⟩ := h
        subst hr
        subst hbuf
        subst hst
        obtain ⟨sb, hm, hmle, hbuf2, hq, heos, hshort⟩ :=
          lowRead_ok hcond.1 heq
        have hq0 : (drainLoop st.peekQueue n).2 = [] :=
          drainLoop_snd_of_lt st.peekQueue n (by omega)
        refine ⟨sb, by omega, by omega, ?_, by rw [hq], by rw [heos],
          ?_⟩
        · rw [hbuf2, bufCopy_bufCopy buf off (drainLoop st.peekQueue n).1 sb
            (by omega)]
        · intro hlt
          refine ⟨by rw [hq]; dsimp only; exact hq0, ?_⟩
          rcases hshort (by omega) with ⟨ha, hi, ht⟩
          exact Or.inr ⟨ha, hi, ht⟩
      · exact absurd h (by simp)
    · rename_i hcond
      simp only [Except.ok.injEq, Prod.mk.injEq] at h
      obtain ⟨hr, hbuf, hst⟩ := h
      subst hr
      subst hbuf
      subst hst
      refine ⟨[], by simp, by omega, by simp, rfl, rfl, ?_⟩
      intro hlt
      have hq0 : (drainLoop st.peekQueue n).2 = [] :=
        drainLoop_snd_of_lt st.peekQueue n (by omega)
      refine ⟨hq0, Or.inl ?_⟩
      rcases Decidable.em (st.endOfStream = true) with he | he
      · exact he
      · exact absurd ⟨by omega, by simpa using he⟩ hcond

/-- Evaluation of `read` on a state whose queue's topmost (most recently
pushed) chunk is `c`, when `c` covers the request or end-of-stream makes
`c` all there is: exactly `c` is delivered. -/
theorem read_of_top {st : RState} {buf : List Nat} {off n : Nat}
    {q0 : List (List Nat)} {c : List Nat}
    (hq : st.peekQueue = q0 ++ [c]) (hn : 0 < n) (hc : c.length ≤ n)
    (hlt : c.length < n → q0 = [] ∧ st.endOfStream = true)
    (hb : off + n ≤ buf.length) :
    read st buf off n = Except.ok (c.length, bufCopy buf off c,
      { st with peekQueue := q0 }) := by
  rw [read, if_neg (by omega), if_neg (by rw [hq]; simp)]
  rw [hq, readLoop_spec (q0 ++ [c]) buf off 0 n (by omega)]
  rw [drainLoop_concat_of_le q0 c n hn hc]
  rcases Nat.lt_or_ge c.length n with hcase | hcase
  · obtain ⟨hq0, heos⟩ := hlt hcase
    subst hq0
    rw [drainLoop_nil]
    dsimp only
    rw [if_neg (by simp [heos])]
    simp
  · have hceq : c.length = n := by omega
    have hz : n - c.length = 0 := by omega
    rw [hz, drainLoop_zero]
    dsimp only
    rw [if_neg (by simp [List.length_append, hceq])]
    simp

theorem read_zero (st : RState) (buf : List Nat) (off : Nat) :
    read st buf off 0 = Except.ok (0, buf, st) := by
  rw [read, if_pos rfl]

theorem read_eos_empty (st : RState) (buf : List Nat) (off n : Nat)
    (hn : 0 < n) (hq : st.peekQueue = []) (he : st.endOfStream = true) :
    read st buf off n = Except.error Err.endOfStreamE := by
  rw [read, if_neg (by omega), if_pos ⟨hq, he⟩]

theorem rejectH_fst_peekQueue (e : Err) (st : RState) :
    (rejectH e st).1.peekQueue = st.peekQueue := by
  rw [rejectH]
  split <;> rfl

theorem rejectH_fst_src (e : Err) (st : RState) :
    (rejectH e st).1.src = st.src := by
  rw [rejectH]
  split <;> rfl

theorem rejectH_fst_endOfStream (e : Err) (st : RState) :
    (rejectH e st).1.endOfStream = true := by
  rw [rejectH]
  split <;> rfl

theorem rejectH_fst_request (e : Err) (st : RState) :
    (rejectH e st).1.request = false := by
  rw [rejectH]
  split
  · rfl
  · rename_i hc
    simpa using hc

/-- A successful `read` never changes the `endOfStream` flag. -/
theorem read_endOfStream {st : RState} {buf : List Nat} {off n r : Nat}
    {buf1 : List Nat} {st1 : RState}
    (h : read st buf off n = Except.ok (r, buf1, st1)) :
    st1.endOfStream = st.endOfStream := by
  rw [read] at h
  split at h
  · simp only [Except.ok.injEq, Prod.mk.injEq] at h
    rw [← h.2.2]
  · split at h
    · exact absurd h (by simp)
    · rcases hE : readLoop st.peekQueue buf off 0 n with ⟨q1, buffer1, bytesRead, remaining⟩
      rw [hE] at h
      dsimp only at h
      split at h
      · rename_i hcond
        split at h
        · rename_i m buffer2 st2 heq
          simp only [Except.ok.injEq, Prod.mk.injEq] at h
          obtain ⟨_, _, hst⟩ := h
          subst hst
          obtain ⟨_, _, _, _, _, heos, _⟩ := lowRead_ok hcond.1 heq
          exact heos
        · exact absurd h (by simp)
      · simp only [Except.ok.injEq, Prod.mk.injEq] at h
        rw [← h.2.2]

/-- A failed `read` made with no outstanding request fails with the
end-of-stream guard error or with a termination error. -/
theorem read_error {st : RState} {buf : List Nat} {off n : Nat} {e : Err}
    (hreq : st.request = false)
    (h : read st buf off n = Except.error e) :
    e = Err.endOfStreamE ∨ ∃ tm, e = termErr tm := by
  rw [read] at h
  split at h
  · exact absurd h (by simp)
  · split at h
    · simp only [Except.error.injEq] at h
      exact Or.inl h.symm
    · rcases hE : readLoop st.peekQueue buf off 0 n with ⟨q1, buffer1, bytesRead, remaining⟩
      rw [hE] at h
      dsimp only at h
      split at h
      · split at h
        · exact absurd h (by simp)
        · rename_i e2 heq
          simp only [Except.error.injEq] at h
          subst h
          refine Or.inr (lowRead_error ?_ heq)
          exact hreq
      · exact absurd h (by simp)

/-- Consuming from a nonempty queue delivers a prefix of the LAST
(most recently pushed) chunk first. -/
theorem drainLoop_top (q : List (List Nat)) (c : List Nat) (n : Nat)
    (hn : 0 < n) :
    ∃ rest restQ, drainLoop (q ++ [c]) n =
      (c.take (min c.length n) ++ rest, restQ) := by
  rcases Nat.lt_or_ge n c.length with hlt | hge
  · refine ⟨[], q ++ [c.drop n], ?_⟩
    rw [drainLoop_concat_of_lt q c n hn hlt, Nat.min_eq_right (by omega),
      List.append_nil]
  · refine ⟨(drainLoop q (n - c.length)).1, (drainLoop q (n - c.length)).2, ?_⟩
    rw [drainLoop_concat_of_le q c n hn (by omega),
      Nat.min_eq_left (by omega), List.take_length]

/-! ### The claims -/

/-- Claim C8: for every buffer and offset, `read(buffer, offset, 0)`
returns `0` immediately, without reading from or modifying the peek
buffer and without issuing any call to the underlying source: the whole
state — queue, flags, and the source with its `calls` counter — is
returned unchanged, as is the buffer. -/
theorem claim_C8 (st : RState) (buf : List Nat) (off : Nat) :
    read st buf off 0 = Except.ok (0, buf, st) :=
  read_zero st buf off

/-- Claim C3: a `read` of `length > 0` with an empty peek queue after
end-of-stream was observed fails immediately with `EndOfStream`; if the
peek queue still holds bytes at that moment, the call succeeds without
error and returns those bytes (`min length (buffered bytes)` of them). -/
theorem claim_C3 (st : RState) (buf : List Nat) (off n : Nat) (hn : 0 < n)
    (hb : off + n ≤ buf.length) :
    (st.peekQueue = [] → st.endOfStream = true →
      read st buf off n = Except.error Err.endOfStreamE) ∧
    (st.endOfStream = true → bytesIn st.peekQueue ≠ 0 →
      ∃ buf1 st1, read st buf off n =
        Except.ok (min n (bytesIn st.peekQueue), buf1, st1)) := by
  constructor
  · intro hq he
    exact read_eos_empty st buf off n hn hq he
  · intro he hbytes
    have hq : ¬st.peekQueue = [] := by
      intro hcontra
      rw [hcontra] at hbytes
      exact hbytes rfl
    rw [read, if_neg (by omega), if_neg (by simp [hq]),
      readLoop_spec _ _ _ _ _ (by omega)]
    dsimp only
    simp only [Nat.zero_add, Nat.add_zero]
    rw [if_neg (by simp [he])]
    refine ⟨bufCopy buf off (drainLoop st.peekQueue n).1,
      { st with peekQueue := (drainLoop st.peekQueue n).2 }, ?_⟩
    rw [drainLoop_length_eq]

/-- Claim C3 witness: with the source ended, a read on an empty queue
fails with `EndOfStream`, while a read on a queue holding one byte
succeeds and returns it. -/
theorem claim_C3_witness :
    read ⟨[], true, false, ⟨[], [], Term.tEnd, 0⟩⟩ [0] 0 1 =
      Except.error Err.endOfStreamE ∧
    ∃ buf1 st1, read ⟨[[5]], true, false, ⟨[], [], Term.tEnd, 0⟩⟩ [0, 0] 0 2 =
      Except.ok (1, buf1, st1) :=
  ⟨(claim_C3 ⟨[], true, false, ⟨[], [], Term.tEnd, 0⟩⟩ [0] 0 1 (by decide)
      (by decide)).1 rfl rfl,
    (claim_C3 ⟨[[5]], true, false, ⟨[], [], Term.tEnd, 0⟩⟩ [0, 0] 0 2
      (by decide) (by decide)).2 rfl (by decide)⟩

/-- Claim C4: a `read` that drains `bytesRead > 0` bytes from the peek
queue but still needs more while end-of-stream is already observed
returns the partial `bytesRead` successfully, with no error, the bytes
having been written into the buffer. -/
theorem claim_C4 (st : RState) (buf : List Nat) (off n : Nat)
    (hEOS : st.endOfStream = true)
    (h0 : 0 < (drainLoop st.peekQueue n).1.length)
    (hlt : (drainLoop st.peekQueue n).1.length < n)
    (hb : off + n ≤ buf.length) :
    read st buf off n = Except.ok ((drainLoop st.peekQueue n).1.length,
      bufCopy buf off (drainLoop st.peekQueue n).1,
      { st with peekQueue := (drainLoop st.peekQueue n).2 }) := by
  have hq : ¬st.peekQueue = [] := by
    intro he
    rw [he, drainLoop_nil] at h0
    exact absurd h0 (by simp)
  rw [read, if_neg (by omega), if_neg (by simp [hq]),
    readLoop_spec _ _ _ _ _ (by omega)]
  dsimp only
  simp only [Nat.zero_add, Nat.add_zero]
  rw [if_neg (by simp [hEOS])]

/-- Claim C4 witness: with the source ended and two bytes buffered, a
read of three bytes returns the two buffered bytes without error. -/
theorem claim_C4_witness :
    read ⟨[[5, 6]], true, false, ⟨[], [], Term.tEnd, 0⟩⟩ [0, 0, 0] 0 3 =
      Except.ok (2, [5, 6, 0], ⟨[], true, false, ⟨[], [], Term.tEnd, 0⟩⟩) :=
  claim_C4 ⟨[[5, 6]], true, false, ⟨[], [], Term.tEnd, 0⟩⟩ [0, 0, 0] 0 3 rfl
    (by decide) (by decide) (by decide)

/-- Claim C10: a `peek` of length 0 pushes a zero-length chunk onto the
peek queue, and — because `read`'s end-of-stream guard counts chunks,
not bytes — a later positive `read` made after termination, with no real
bytes buffered, returns 0 instead of failing with `EndOfStream`. -/
theorem claim_C10 (st : RState) (buf buf2 : List Nat) (off off2 n : Nat)
    (hq : st.peekQueue = []) (hEOS : st.endOfStream = true) (hn : 0 < n) :
    peek st buf off 0 = Except.ok (0, buf, { st with peekQueue := [[]] }) ∧
    read { st with peekQueue := [[]] } buf2 off2 n =
      Except.ok (0, buf2, { st with peekQueue := [] }) := by
  constructor
  · rw [peek, read_zero]
    dsimp only
    rw [Nat.add_zero, slice_same, hq]
    rfl
  · have hrl : readLoop [[]] buf2 off2 0 n = ([], buf2, 0, n) := by
      simp only [readLoop, List.reverse_cons, List.reverse_nil,
        List.nil_append]
      rw [readRev_cons [] [] buf2 off2 0 n hn]
      simp [readRev_nil, bufCopy_nil]
    rw [read, if_neg (by omega), if_neg (by simp), hrl]
    dsimp only
    rw [if_neg (by simp [hEOS])]

/-- Claim C10 witness: after a zero-length peek on a terminated reader,
a one-byte read returns 0 successfully instead of `EndOfStream`. -/
theorem claim_C10_witness :
    peek ⟨[], true, false, ⟨[], [], Term.tEnd, 0⟩⟩ [7] 0 0 =
      Except.ok (0, [7], ⟨[[]], true, false, ⟨[], [], Term.tEnd, 0⟩⟩) ∧
    read ⟨[[]], true, false, ⟨[], [], Term.tEnd, 0⟩⟩ [9] 0 1 =
      Except.ok (0, [9], ⟨[], true, false, ⟨[], [], Term.tEnd, 0⟩⟩) :=
  claim_C10 ⟨[], true, false, ⟨[], [], Term.tEnd, 0⟩⟩ [7] [9] 0 0 1 rfl rfl
    (by decide)

/-- Claim C2 counterexample: the peek buffer is NOT consumed in FIFO
chunk order.  With `[1]` pushed before `[2]`, a one-byte `read` delivers
the byte of the LATER-pushed chunk `[2]` (the JS array is popped at the
end) and leaves the earlier chunk `[1]` in the queue, where FIFO order
would deliver `1`. -/
theorem claim_C2_counterexample :
    read ⟨[[1], [2]], true, false, ⟨[], [], Term.tEnd, 0⟩⟩ [0] 0 1 =
      Except.ok (1, [2], ⟨[[1]], true, false, ⟨[], [], Term.tEnd, 0⟩⟩) ∧
    (2 : Nat) ≠ 1 :=
  ⟨rfl, by decide⟩

/-- Claim C2 as amended: the peek buffer is consumed in LIFO chunk
order — the MOST RECENTLY pushed not-fully-consumed chunk is the next
one consumed — and when a chunk is only partially consumed its remainder
is pushed back at the consuming end (the top), so it is taken first by
the next consumption. -/
theorem claim_C2 (q : List (List Nat)) (c : List Nat) (n : Nat) (hn : 0 < n) :
    (∃ rest restQ, drainLoop (q ++ [c]) n =
      (c.take (min c.length n) ++ rest, restQ)) ∧
    (n < c.length →
      drainLoop (q ++ [c]) n = (c.take n, q ++ [c.drop n]) ∧
      ∀ m, 0 < m → ∃ rest2 restQ2, drainLoop ((q ++ [c.drop n]) : List (List Nat)) m =
        ((c.drop n).take (min (c.drop n).length m) ++ rest2, restQ2)) := by
  refine ⟨drainLoop_top q c n hn, ?_⟩
  intro hlt
  exact ⟨drainLoop_concat_of_lt q c n hn hlt,
    fun m hm => drainLoop_top q (c.drop n) m hm⟩

/-- Claim C2 witness: draining one byte from the queue `[[1], [2, 3]]`
(chunk `[2, 3]` pushed last) delivers `2` and leaves the remainder `[3]`
on top. -/
theorem claim_C2_witness :
    drainLoop [[1], [2, 3]] 1 = ([2], [[1], [3]]) :=
  ((claim_C2 [[1]] [2, 3] 1 (by decide)).2 (by decide)).1

/-- Claim C6: the source's `end`, `error` and `close` signals all route
to the single `reject` handler, which sets `endOfStream` (the absorbing
Ended state — a later successful `read` still leaves it set), clears the
request slot, and, exactly when a request was outstanding, rejects its
deferred with `EndOfStream` for `end`, the propagated error for `error`,
and the `Error('Stream closed')` error for `close`. -/
theorem claim_C6 (st : RState) (e : Err) (code : Nat) :
    onEnd st = rejectH Err.endOfStreamE st ∧
    onSrcError code st = rejectH (Err.sourceE code) st ∧
    onClose st = rejectH Err.closedE st ∧
    (rejectH e st).1.endOfStream = true ∧
    (rejectH e st).1.request = false ∧
    (st.request = true → (rejectH e st).2 = some e) ∧
    (st.request = false → (rejectH e st).2 = none) ∧
    (∀ (buf : List Nat) (off n r : Nat) (b1 : List Nat) (s1 : RState),
      read (rejectH e st).1 buf off n = Except.ok (r, b1, s1) →
      s1.endOfStream = true) := by
  refine ⟨rfl, rfl, rfl, rejectH_fst_endOfStream e st,
    rejectH_fst_request e st, ?_, ?_, ?_⟩
  · intro hr
    rw [rejectH, if_pos (by simpa using hr)]
  · intro hr
    rw [rejectH, if_neg (by simpa using hr)]
  · intro buf off n r b1 s1 h
    rw [read_endOfStream h, rejectH_fst_endOfStream]

/-- Claim C6 witness: with a request outstanding, the `error` handler
rejects it with the propagated error and ends the stream; with none
outstanding, the `end` handler only records end-of-stream. -/
theorem claim_C6_witness :
    onSrcError 3 ⟨[], false, true, ⟨[], [], Term.tEnd, 0⟩⟩ =
      rejectH (Err.sourceE 3) ⟨[], false, true, ⟨[], [], Term.tEnd, 0⟩⟩ ∧
    (rejectH (Err.sourceE 3) ⟨[], false, true, ⟨[], [], Term.tEnd, 0⟩⟩).2 =
      some (Err.sourceE 3) ∧
    (rejectH Err.endOfStreamE ⟨[], false, false, ⟨[], [], Term.tEnd, 0⟩⟩).2 =
      none :=
  ⟨(claim_C6 ⟨[], false, true, ⟨[], [], Term.tEnd, 0⟩⟩ (Err.sourceE 3) 3).2.1,
    (claim_C6 ⟨[], false, true, ⟨[], [], Term.tEnd, 0⟩⟩ (Err.sourceE 3)
      3).2.2.2.2.2.1 rfl,
    (claim_C6 ⟨[], false, false, ⟨[], [], Term.tEnd, 0⟩⟩ Err.endOfStreamE
      0).2.2.2.2.2.2.1 rfl⟩

/-- Claim C5 counterexample: a source error arriving when NO read is
pending is not delivered to the next `read` call.  The handler discards
it, and the next read (empty queue) fails with `EndOfStream`, not with
the source's error. -/
theorem claim_C5_counterexample :
    (onSrcError 7 ⟨[], false, false, ⟨[], [], Term.tError 7, 0⟩⟩).2 = none ∧
    read (onSrcError 7 ⟨[], false, false, ⟨[], [], Term.tError 7, 0⟩⟩).1
      [] 0 1 = Except.error Err.endOfStreamE ∧
    Err.endOfStreamE ≠ Err.sourceE 7 :=
  ⟨rfl, rfl, by decide⟩

/-- Claim C5 as amended: a source error is delivered verbatim to the
currently pending read's future when one is outstanding; when none is
pending the error is discarded — the handler only records end-of-stream,
and a subsequent read finding the peek queue empty fails with
`EndOfStream` rather than the source error. -/
theorem claim_C5 (st : RState) (code : Nat) :
    (st.request = true → onSrcError code st =
      ({ st with endOfStream := true, request := false },
        some (Err.sourceE code))) ∧
    (st.request = false → onSrcError code st =
      ({ st with endOfStream := true }, none)) ∧
    (∀ (buf : List Nat) (off n : Nat), 0 < n → st.peekQueue = [] →
      read (onSrcError code st).1 buf off n =
        Except.error Err.endOfStreamE) := by
  refine ⟨?_, ?_, ?_⟩
  · intro hr
    rw [onSrcError, rejectH, if_pos (by simpa using hr)]
  · intro hr
    rw [onSrcError, rejectH, if_neg (by simpa using hr)]
  · intro buf off n hn hq
    apply read_eos_empty _ _ _ _ hn
    · rw [onSrcError, rejectH_fst_peekQueue, hq]
    · rw [onSrcError, rejectH_fst_endOfStream]

/-- Claim C5 witness: with a request pending the error is handed to it
verbatim; with none pending the next read fails with `EndOfStream`. -/
theorem claim_C5_witness :
    onSrcError 7 ⟨[], false, true, ⟨[], [], Term.tError 7, 0⟩⟩ =
      (⟨[], true, false, ⟨[], [], Term.tError 7, 0⟩⟩, some (Err.sourceE 7)) ∧
    read (onSrcError 7 ⟨[], false, false, ⟨[], [], Term.tError 7, 0⟩⟩).1
      [] 0 1 = Except.error Err.endOfStreamE :=
  ⟨(claim_C5 ⟨[], false, true, ⟨[], [], Term.tError 7, 0⟩⟩ 7).1 rfl,
    (claim_C5 ⟨[], false, false, ⟨[], [], Term.tError 7, 0⟩⟩ 7).2.2 [] 0 1
      (by decide) rfl⟩

/-- Claim C9: the low-level read asserts that no request is outstanding —
calling it with one pending fails with the fatal
`ConcurrentAccessViolation` assertion — and under the single-caller
precondition (no request outstanding when a public call starts) that
branch is unreachable: a public `read` never produces the assertion
error. -/
theorem claim_C9 (st : RState) (buf : List Nat) (off n : Nat) :
    (st.request = true → lowRead st buf off n = Except.error Err.assertionE) ∧
    (st.request = false → ∀ e, read st buf off n = Except.error e →
      e ≠ Err.assertionE) := by
  constructor
  · intro hr
    rw [lowRead, if_pos hr]
  · intro hr e he
    rcases read_error hr he with h1 | ⟨tm, h2⟩
    · rw [h1]
      decide
    · rw [h2]
      exact termErr_ne_assertionE tm

/-- Claim C9 witness: a low-level read with a request outstanding fails
with the assertion error, while the failure of a public read on an ended
reader is `EndOfStream`, not the assertion. -/
theorem claim_C9_witness :
    lowRead ⟨[], false, true, ⟨[], [], Term.tEnd, 0⟩⟩ [] 0 1 =
      Except.error Err.assertionE ∧
    Err.endOfStreamE ≠ Err.assertionE :=
  ⟨(claim_C9 ⟨[], false, true, ⟨[], [], Term.tEnd, 0⟩⟩ [] 0 1).1 rfl,
    (claim_C9 ⟨[], true, false, ⟨[], [], Term.tEnd, 0⟩⟩ [] 0 1).2 rfl
      Err.endOfStreamE rfl⟩

/-- After a short read (queue drained, or source exhausted on a normal
end), pushing the peeked slice back and letting pending events fire
leaves the reader with `endOfStream` set. -/
theorem settle_after_short (strd : RState) (c : List Nat)
    (h : strd.endOfStream = true ∨ (strd.src.avail = [] ∧
      strd.src.incoming = [] ∧ strd.src.termSig = Term.tEnd)) :
    (settle { strd with peekQueue := strd.peekQueue ++ [c] }).endOfStream
      = true := by
  rcases h with he | ⟨h1, h2, _⟩
  · rw [settle_of_endOfStream _ (by simpa using he)]
    simpa using he
  · exact settle_endOfStream_of_exhausted _ (by simpa using h1)
      (by simpa using h2)

/-- Claim C1: after every successful `peek(buffer, offset, length)`
returning `bytesRead`, the slice `[offset, offset + bytesRead)` of the
caller's buffer has been pushed back onto the peek queue, and an
immediately following `read` of the same length succeeds with the same
`bytesRead` and writes exactly the same bytes into its buffer. -/
theorem claim_C1 (st : RState) (bufA : List Nat) (off1 n r : Nat)
    (buf1 : List Nat) (st1 : RState) (bufB : List Nat) (off2 : Nat)
    (hb1 : off1 + n ≤ bufA.length) (hb2 : off2 + n ≤ bufB.length)
    (h : peek st bufA off1 n = Except.ok (r, buf1, st1)) :
    (∃ q0, st1.peekQueue = q0 ++ [slice buf1 off1 (off1 + r)]) ∧
    (∃ buf2 st2, read (settle st1) bufB off2 n = Except.ok (r, buf2, st2) ∧
      slice buf2 off2 (off2 + r) = slice buf1 off1 (off1 + r)) := by
  obtain ⟨strd, hread, hst1⟩ := peek_ok h
  subst hst1
  refine ⟨⟨strd.peekQueue, rfl⟩, ?_⟩
  by_cases hn : n = 0
  · subst hn
    rw [read_zero] at hread
    simp only [Except.ok.injEq, Prod.mk.injEq] at hread
    obtain ⟨hr0, hbuf0, hst0⟩ := hread
    subst hr0
    refine ⟨bufB, _, read_zero _ _ _, ?_⟩
    rw [Nat.add_zero, Nat.add_zero, slice_same, slice_same]
  · have hn' : 0 < n := Nat.pos_of_ne_zero hn
    obtain ⟨sb, hr, hrle, hbuf1, hqd, heos, hshort⟩ := read_ok hn' hb1 hread
    have hlen1 : buf1.length = bufA.length := by rw [hbuf1, bufCopy_length]
    have hcl : (slice buf1 off1 (off1 + r)).length = r := by
      rw [slice_length buf1 off1 (off1 + r) (by omega) (by omega)]
      omega
    have hqset : (settle { strd with
        peekQueue := strd.peekQueue ++ [slice buf1 off1 (off1 + r)]
      }).peekQueue = strd.peekQueue ++ [slice buf1 off1 (off1 + r)] :=
      settle_peekQueue _
    have hres := read_of_top hqset hn' (by omega) ?_ hb2
    · rw [hcl] at hres
      refine ⟨bufCopy bufB off2 (slice buf1 off1 (off1 + r)), _, hres, ?_⟩
      rw [show off2 + r = off2 + (slice buf1 off1 (off1 + r)).length from
        by rw [hcl]]
      exact slice_bufCopy bufB off2 (slice buf1 off1 (off1 + r)) (by omega)
    · intro hlt
      have hrn : r < n := by omega
      obtain ⟨hq0, hdisj⟩ := hshort hrn
      refine ⟨hq0, settle_after_short strd _ ?_⟩
      rcases hdisj with hEos | hExh
      · exact Or.inl (heos.trans hEos)
      · exact Or.inr hExh

/-- Claim C1 witness: a two-byte peek pulling `[1, 2]` from the source,
followed by a two-byte read, yields the same count and the same bytes. -/
theorem claim_C1_witness :
    ∃ buf2 st2,
      read (settle ⟨[[1, 2]], false, false, ⟨[], [], Term.tEnd, 1⟩⟩)
        [9, 9] 0 2 = Except.ok (2, buf2, st2) ∧
      slice buf2 0 (0 + 2) = slice [1, 2] 0 (0 + 2) :=
  (claim_C1 ⟨[], false, false, ⟨[1, 2], [], Term.tEnd, 0⟩⟩ [0, 0] 0 2 2
    [1, 2] ⟨[[1, 2]], false, false, ⟨[], [], Term.tEnd, 1⟩⟩ [9, 9] 0
    (by decide) (by decide) rfl).2

/-- Claim C7: peeking `n1` bytes and then (after pending events fire)
peeking `n2 ≥ n1` bytes with no intervening read yields a second result
whose first `n1` bytes equal the first peek's result. -/
theorem claim_C7 (st : RState) (bufA : List Nat) (off1 n1 r1 : Nat)
    (buf1 : List Nat) (st1 : RState) (bufB : List Nat) (off2 n2 r2 : Nat)
    (buf2 : List Nat) (st2 : RState)
    (h12 : n1 ≤ n2) (hb1 : off1 + n1 ≤ bufA.length)
    (hb2 : off2 + n2 ≤ bufB.length)
    (h1 : peek st bufA off1 n1 = Except.ok (r1, buf1, st1))
    (h2 : peek (settle st1) bufB off2 n2 = Except.ok (r2, buf2, st2)) :
    (slice buf2 off2 (off2 + r2)).take n1 = slice buf1 off1 (off1 + r1) := by
  obtain ⟨strd1, hread1, hst1⟩ := peek_ok h1
  subst hst1
  obtain ⟨strd2, hread2, _⟩ := peek_ok h2
  by_cases hn1 : n1 = 0
  · subst hn1
    rw [read_zero] at hread1
    simp only [Except.ok.injEq, Prod.mk.injEq] at hread1
    obtain ⟨hr0, _, _⟩ := hread1
    subst hr0
    rw [List.take_zero, Nat.add_zero, slice_same]
  · have hn1' : 0 < n1 := Nat.pos_of_ne_zero hn1
    have hn2' : 0 < n2 := by omega
    obtain ⟨sb1, hr1, hr1le, hbuf1, hqd1, heos1, hshort1⟩ :=
      read_ok hn1' hb1 hread1
    have hlen1 : buf1.length = bufA.length := by rw [hbuf1, bufCopy_length]
    have hcl : (slice buf1 off1 (off1 + r1)).length = r1 := by
      rw [slice_length buf1 off1 (off1 + r1) (by omega) (by omega)]
      omega
    rcases Nat.lt_or_ge r1 n1 with hr1lt | hr1ge
    · obtain ⟨hq0, hdisj⟩ := hshort1 hr1lt
      have hsettle : (settle { strd1 with
          peekQueue := strd1.peekQueue ++ [slice buf1 off1 (off1 + r1)]
        }).endOfStream = true := by
        refine settle_after_short strd1 _ ?_
        rcases hdisj with hEos | hExh
        · exact Or.inl (heos1.trans hEos)
        · exact Or.inr hExh
      have hqset : (settle { strd1 with
          peekQueue := strd1.peekQueue ++ [slice buf1 off1 (off1 + r1)]
        }).peekQueue = [] ++ [slice buf1 off1 (off1 + r1)] := by
        rw [settle_peekQueue, hq0]
      have hres := read_of_top hqset hn2' (by omega)
        (fun _ => ⟨rfl, hsettle⟩) hb2
      have hcomb := hread2.symm.trans hres
      simp only [Except.ok.injEq, Prod.mk.injEq] at hcomb
      obtain ⟨hr2eq, hbuf2eq, _⟩ := hcomb
      subst hr2eq
      subst hbuf2eq
      rw [slice_bufCopy bufB off2 (slice buf1 off1 (off1 + r1)) (by omega)]
      exact List.take_of_length_le (by omega)
    · have hr1n : r1 = n1 := by omega
      obtain ⟨sb2, hr2, hr2le, hbuf2, hqd2, heos2, hshort2⟩ :=
        read_ok hn2' hb2 hread2
      have hsq : (settle { strd1 with
          peekQueue := strd1.peekQueue ++ [slice buf1 off1 (off1 + r1)]
        }).peekQueue = strd1.peekQueue ++ [slice buf1 off1 (off1 + r1)] :=
        settle_peekQueue _
      rw [hsq] at hr2 hbuf2
      rw [drainLoop_concat_of_le strd1.peekQueue
        (slice buf1 off1 (off1 + r1)) n2 hn2' (by omega)] at hr2 hbuf2
      dsimp only at hr2 hbuf2
      simp only [List.length_append] at hr2
      subst hbuf2
      have hr2' : off2 + r2 = off2 + ((slice buf1 off1 (off1 + r1) ++
          (drainLoop strd1.peekQueue
            (n2 - (slice buf1 off1 (off1 + r1)).length)).1) ++ sb2).length := by
        simp only [List.length_append]
        omega
      rw [hr2', slice_bufCopy bufB off2 _ (by
        simp only [List.length_append]
        omega)]
      rw [List.append_assoc,
        show n1 = (slice buf1 off1 (off1 + r1)).length from by omega,
        List.take_left]

/-- Claim C7 witness: peeking one byte (`[1]`) and then peeking two
(`[1, 2]`) from a source holding `[1, 2]` gives a second result whose
first byte equals the first peek's result. -/
theorem claim_C7_witness :
    (slice [1, 2] 0 (0 + 2)).take 1 = slice [1] 0 (0 + 1) :=
  claim_C7 ⟨[], false, false, ⟨[1, 2], [], Term.tEnd, 0⟩⟩ [0] 0 1 1 [1]
    ⟨[[1]], false, false, ⟨[2], [], Term.tEnd, 1⟩⟩ [0, 0] 0 2 2 [1, 2]
    ⟨[[1, 2]], false, false, ⟨[], [], Term.tEnd, 2⟩⟩ (by decide) (by decide)
    (by decide) rfl rfl

end PeekReadable
